import Mathlib

/-!
Verification of the Dockerfile analyzer/optimizer core of
maxlar/docker-image-optimizer.

The Go sources are shallowly embedded: text is `List Char` (`Str`), the Go
string helpers (`strings.TrimSpace`, `strings.Fields`, `strings.Split`,
`strings.ReplaceAll`, ...) are reimplemented as executable Lean functions over
ASCII text (the Go originals are Unicode-aware; every input considered here is
ASCII, where the two agree), and each Go function under analysis is translated
statement by statement, keeping its name.
-/

namespace DIO

/-- Text is modelled as a list of characters. -/
abbrev Str := List Char

/-- ASCII whitespace, the character class `strings.TrimSpace` and
`strings.Fields` use (restricted to ASCII). -/
def isSpaceChar (c : Char) : Bool :=
  c == ' ' || c == '\t' || c == '\n' || c == '\r' || c == '\x0b' || c == '\x0c'

/-- Go `strings.TrimSpace` (ASCII): drop whitespace from both ends. -/
def trimSpace (s : Str) : Str :=
  ((s.dropWhile isSpaceChar).reverse.dropWhile isSpaceChar).reverse

/-- Go `strings.ToUpper` (ASCII). -/
def toUpperStr (s : Str) : Str := s.map Char.toUpper

/-- Go `strings.ToLower` (ASCII). -/
def toLowerStr (s : Str) : Str := s.map Char.toLower

/-- Go `strings.Split(s, "\n")`: the segments of `s` between newlines; always
at least one (possibly empty) segment. -/
def splitNl : Str → List Str
  | [] => [[]]
  | c :: rest =>
    match splitNl rest with
    | [] => [[]]
    | seg :: segs => if c == '\n' then [] :: seg :: segs else (c :: seg) :: segs

/-- Go `strings.Join(lines, "\n")`. -/
def joinNl (ls : List Str) : Str := List.intercalate ['\n'] ls

/-- Accumulator pass behind `fieldsOf`: `cur` is the reversed current field. -/
def fieldsAux : Str → Str → List Str
  | [], cur => if cur.isEmpty then [] else [cur.reverse]
  | c :: rest, cur =>
    if isSpaceChar c then
      if cur.isEmpty then fieldsAux rest [] else cur.reverse :: fieldsAux rest []
    else fieldsAux rest (c :: cur)

/-- Go `strings.Fields`: the whitespace-separated fields of `s`. -/
def fieldsOf (s : Str) : List Str := fieldsAux s []

/-- Go `strings.Contains(s, sub)`: `sub` occurs contiguously in `s`. -/
def containsStr : Str → Str → Bool
  | [], sub => sub.isEmpty
  | c :: rest, sub => sub.isPrefixOf (c :: rest) || containsStr rest sub

/-- Go `strings.TrimSuffix`: remove one trailing occurrence of `suf`. -/
def trimOneSuffix (s suf : Str) : Str :=
  if suf.isSuffixOf s then s.take (s.length - suf.length) else s

/-- Worker for `replaceAll` on a nonempty pattern `p :: ps`; `fuel` bounds
the recursion depth and each step consumes at least one character, so
`fuel = length of the text` is always enough. -/
def replaceAllAux (p : Char) (ps rep : Str) : Nat → Str → Str
  | _, [] => []
  | 0, s => s
  | fuel + 1, c :: rest =>
    if (p :: ps).isPrefixOf (c :: rest) then
      rep ++ replaceAllAux p ps rep fuel (rest.drop ps.length)
    else
      c :: replaceAllAux p ps rep fuel rest

/-- Go `strings.ReplaceAll(s, pat, rep)`: replace the leftmost,
non-overlapping occurrences of `pat`. (The code embedded here never calls it
with an empty pattern, which Go treats specially.) -/
def replaceAll (s pat rep : Str) : Str :=
  match pat with
  | [] => s
  | p :: ps => replaceAllAux p ps rep s.length s

/-! ## The severity-weighted score (internal/analyzer/rules.go) -/

/-- `models.Issue`: a single finding. Severity is a string in the Go source
(`models.Severity`); unset optional fields are their zero values. -/
structure Issue where
  id : Str
  severity : Str
  category : Str
  title : Str
  description : Str
  line : Nat
  suggestion : Str
  autoFixable : Bool
deriving DecidableEq

/-- The per-severity weight of `calculateScore`'s `switch`: an unknown
severity subtracts nothing, as a Go `switch` without `default` does. -/
def severityWeight (sev : Str) : Int :=
  if sev = "critical".toList then 20
  else if sev = "high".toList then 15
  else if sev = "medium".toList then 10
  else if sev = "low".toList then 5
  else if sev = "info".toList then 2
  else 0

/-- `calculateScore` (rules.go): start at 100, subtract per finding by
severity weight, floor the result at 0. -/
def calculateScore (issues : List Issue) : Int :=
  let score := issues.foldl (fun s i => s - severityWeight i.severity) 100
  if score < 0 then 0 else score

/-- The total severity weight of a finding list. -/
def issueWeightSum (issues : List Issue) : Int :=
  (issues.map (fun i => severityWeight i.severity)).sum

theorem severityWeight_nonneg (sev : Str) : 0 ≤ severityWeight sev := by
  unfold severityWeight
  split_ifs <;> decide

theorem foldl_sub_eq_weightSum (issues : List Issue) (a : Int) :
    issues.foldl (fun s i => s - severityWeight i.severity) a = a - issueWeightSum issues := by
  induction issues generalizing a with
  | nil => simp [issueWeightSum]
  | cons x xs ih =>
    simp only [List.foldl_cons, ih, issueWeightSum, List.map_cons, List.sum_cons]
    ring

theorem issueWeightSum_nonneg (issues : List Issue) : 0 ≤ issueWeightSum issues := by
  induction issues with
  | nil => simp [issueWeightSum]
  | cons x xs ih =>
    simp only [issueWeightSum, List.map_cons, List.sum_cons]
    have := severityWeight_nonneg x.severity
    simp only [issueWeightSum] at ih
    omega

theorem issueWeightSum_append (l₁ l₂ : List Issue) :
    issueWeightSum (l₁ ++ l₂) = issueWeightSum l₁ + issueWeightSum l₂ := by
  simp [issueWeightSum]

theorem calculateScore_eq_clamp (issues : List Issue) :
    calculateScore issues = max 0 (min 100 (100 - issueWeightSum issues)) := by
  unfold calculateScore
  rw [foldl_sub_eq_weightSum]
  have h := issueWeightSum_nonneg issues
  by_cases hlt : (100 : Int) - issueWeightSum issues < 0
  · simp only [hlt, if_true]
    omega
  · simp only [hlt, if_false]
    omega

/-- C1: the analysis score is `100 − Σ severity weights` clamped to `[0,100]`
(critical 20, high 15, medium 10, low 5, info 2, per `severityWeight`); it
always lies in `[0,100]`, is non-increasing as findings are added, and is
invariant under permutation of the finding list. -/
theorem calculateScore_props (issues : List Issue) :
    calculateScore issues = max 0 (min 100 (100 - issueWeightSum issues))
    ∧ 0 ≤ calculateScore issues
    ∧ calculateScore issues ≤ 100
    ∧ (∀ extra : Issue, calculateScore (issues ++ [extra]) ≤ calculateScore issues)
    ∧ ∀ issues2 : List Issue, issues.Perm issues2 → calculateScore issues2 = calculateScore issues := by
  refine ⟨calculateScore_eq_clamp issues, ?_, ?_, ?_, ?_⟩
  · rw [calculateScore_eq_clamp]; omega
  · rw [calculateScore_eq_clamp]
    have h := issueWeightSum_nonneg issues
    omega
  · intro extra
    rw [calculateScore_eq_clamp, calculateScore_eq_clamp, issueWeightSum_append]
    have h1 := issueWeightSum_nonneg issues
    have h2 := issueWeightSum_nonneg [extra]
    omega
  · intro issues2 hperm
    rw [calculateScore_eq_clamp, calculateScore_eq_clamp]
    have hsum : issueWeightSum issues2 = issueWeightSum issues := by
      unfold issueWeightSum
      exact List.Perm.sum_eq (hperm.map (fun i => severityWeight i.severity)).symm
    rw [hsum]

/-- A high-severity demo finding. -/
def issueHighDemo : Issue :=
  ⟨"DIO006".toList, "high".toList, "security".toList, [], [], 0, [], true⟩

/-- A low-severity demo finding. -/
def issueLowDemo : Issue :=
  ⟨"DIO011".toList, "low".toList, "best-practice".toList, [], [], 0, [], true⟩

/-- A medium-severity demo finding. -/
def issueMediumDemo : Issue :=
  ⟨"DIO005".toList, "medium".toList, "optimization".toList, [], [], 0, [], true⟩

/-- Witness for C1 at a concrete finding list: score 80 for one high and one
low finding, non-increasing under an added medium finding, and invariant
under swapping the two findings. -/
theorem calculateScore_props_witness :
    calculateScore [issueHighDemo, issueLowDemo] = 80
    ∧ calculateScore ([issueHighDemo, issueLowDemo] ++ [issueMediumDemo])
        ≤ calculateScore [issueHighDemo, issueLowDemo]
    ∧ calculateScore [issueLowDemo, issueHighDemo] = calculateScore [issueHighDemo, issueLowDemo] := by
  have h := calculateScore_props [issueHighDemo, issueLowDemo]
  exact ⟨by decide, h.2.2.2.1 issueMediumDemo,
    h.2.2.2.2 [issueLowDemo, issueHighDemo] (List.Perm.swap issueLowDemo issueHighDemo [])⟩

/-! ## The estimated-reduction label (optimizer, part_001) -/

/-- `models.Optimization`: a candidate transformation outcome. -/
structure Optimization where
  id : Str
  category : Str
  title : Str
  description : Str
  impact : Str
  applied : Bool
  autoFixable : Bool
  priority : Int
deriving DecidableEq

/-- The per-category percentage of `estimateReduction`'s `switch`
(default 5). -/
def categoryImpact (c : Str) : Nat :=
  if c = "base-image".toList then 60
  else if c = "multi-stage".toList then 50
  else if c = "layer-optimization".toList then 15
  else if c = "cleanup".toList then 20
  else 5

/-- `estimateReduction` (optimizer): sum the per-category impact of the
applied optimizations, cap at 85, render; with nothing applied the label is
the fixed suggest-mode string. -/
def estimateReduction (optimizations : List Optimization) : Str :=
  let totalImpact := optimizations.foldl
    (fun acc opt => if opt.applied then acc + categoryImpact opt.category else acc) 0
  let totalImpact := if totalImpact > 85 then 85 else totalImpact
  if totalImpact = 0 then "N/A (suggest mode)".toList
  else "~".toList ++ (toString totalImpact).toList ++ "% estimated reduction".toList

/-- The capped impact sum of a list of optimizations, over the applied ones
only. -/
def appliedImpactSum (optimizations : List Optimization) : Nat :=
  ((optimizations.filter (fun o => o.applied)).map (fun o => categoryImpact o.category)).sum

theorem categoryImpact_pos (c : Str) : 0 < categoryImpact c := by
  unfold categoryImpact
  split_ifs <;> decide

theorem foldl_impact_eq_sum (optimizations : List Optimization) (a : Nat) :
    optimizations.foldl
      (fun acc opt => if opt.applied then acc + categoryImpact opt.category else acc) a
    = a + appliedImpactSum optimizations := by
  induction optimizations generalizing a with
  | nil => simp [appliedImpactSum]
  | cons x xs ih =>
    simp only [List.foldl_cons]
    cases hx : x.applied
    · have hs : appliedImpactSum (x :: xs) = appliedImpactSum xs := by
        simp [appliedImpactSum, List.filter_cons, hx]
      rw [if_neg (by simp), ih, hs]
    · have hs : appliedImpactSum (x :: xs) = categoryImpact x.category + appliedImpactSum xs := by
        simp [appliedImpactSum, List.filter_cons, hx]
      rw [if_pos rfl, ih, hs]
      omega

theorem appliedImpactSum_zero_iff (optimizations : List Optimization) :
    appliedImpactSum optimizations = 0 ↔ optimizations.filter (fun o => o.applied) = [] := by
  unfold appliedImpactSum
  constructor
  · intro h
    by_contra hne
    match hfe : optimizations.filter (fun o => o.applied) with
    | [] => exact hne hfe
    | o :: rest =>
      rw [hfe] at h
      simp only [List.map_cons, List.sum_cons] at h
      have := categoryImpact_pos o.category
      omega
  · intro h
    rw [h]
    simp

/-- C8: the estimated-reduction label sums the fixed per-category
contributions of exactly the applied optimizations, caps the sum at 85, and
renders `~N% estimated reduction`; with no applied optimization it is exactly
`N/A (suggest mode)`. (`estimateReduction` takes no mode, so the label is the
same whatever mode the pipeline ran in.) -/
theorem estimateReduction_spec (optimizations : List Optimization) :
    estimateReduction optimizations =
      if optimizations.filter (fun o => o.applied) = [] then
        "N/A (suggest mode)".toList
      else
        "~".toList ++ (toString (min 85 (appliedImpactSum optimizations))).toList
          ++ "% estimated reduction".toList := by
  unfold estimateReduction
  rw [foldl_impact_eq_sum]
  simp only [Nat.zero_add]
  by_cases hf : optimizations.filter (fun o => o.applied) = []
  · have h0 : appliedImpactSum optimizations = 0 := (appliedImpactSum_zero_iff optimizations).mpr hf
    simp [hf, h0]
  · have h0 : appliedImpactSum optimizations ≠ 0 := by
      intro hc
      exact hf ((appliedImpactSum_zero_iff optimizations).mp hc)
    have hmin : (if appliedImpactSum optimizations > 85 then 85 else appliedImpactSum optimizations)
        = min 85 (appliedImpactSum optimizations) := by
      rw [Nat.min_def]
      split_ifs <;> omega
    rw [hmin]
    have hpos : 0 < min 85 (appliedImpactSum optimizations) :=
      lt_min (by norm_num) (Nat.pos_of_ne_zero h0)
    have hne : min 85 (appliedImpactSum optimizations) ≠ 0 := by omega
    simp [hf, hne]

/-! ## The Dockerfile parser (internal/analyzer/rules.go, parseDockerfile)

`parseDockerfile` iterates `for i, line := range lines`. Inside the body the
continuation handling advances a local copy of `i` and joins the following
lines, but a Go range loop re-assigns `i` at every iteration, so the joined
continuation lines are visited again by the loop. The embedding reproduces
exactly that: a fold over the enumerated line list, where each step re-reads
its own index and line and runs the body (including the local `i`
advancement) from scratch. -/

/-- The RE2 word-character class `\w` = `[0-9A-Za-z_]`. -/
def isWordChar (c : Char) : Bool := c.isAlphanum || c == '_'

/-- The RE2 whitespace class `\s` = `[\t\n\f\r ]`. -/
def isRegexSpace (c : Char) : Bool :=
  c == ' ' || c == '\t' || c == '\n' || c == '\x0c' || c == '\r'

/-- `instructionRegex.FindStringSubmatch` for `^(\w+)\s+(.*)`: the leading
word-character run, a nonempty whitespace run, and then everything up to a
newline (`.` does not match a newline); `none` when the line does not start
with this shape (the caller's `len(matches) < 3` test). -/
def instMatch (t : Str) : Option (Str × Str) :=
  let w := t.takeWhile isWordChar
  let rest := t.dropWhile isWordChar
  let sp := rest.takeWhile isRegexSpace
  if w.isEmpty || sp.isEmpty then none
  else some (w, (rest.dropWhile isRegexSpace).takeWhile (fun c => c != '\n'))

/-- `Instruction` (rules.go): one parsed Dockerfile instruction. -/
structure Instruction where
  command : Str
  args : Str
  line : Nat
  raw : Str
deriving DecidableEq, Repr

/-- `Stage` (rules.go): one build stage. -/
structure Stage where
  name : Str
  baseImage : Str
  instructions : List Instruction
  startLine : Nat
deriving DecidableEq, Repr

/-- `ParsedDockerfile` (rules.go). -/
structure ParsedDockerfile where
  stages : List Stage
  instructions : List Instruction
  baseImages : List Str
  hasMultiStage : Bool
deriving DecidableEq, Repr

/-- `parseBaseImage` (rules.go): the lower-cased first whitespace-delimited
field of a `FROM` argument string, or empty. -/
def parseBaseImage (args : Str) : Str :=
  match fieldsOf args with
  | [] => []
  | p :: _ => toLowerStr p

/-- The loop of `parseStageName`: the field after the first case-insensitive
`AS` that has a successor field. -/
def parseStageNameAux : List Str → Str
  | [] => []
  | [_] => []
  | p :: q :: rest =>
    if toLowerStr p = "as".toList then q else parseStageNameAux (q :: rest)

/-- `parseStageName` (rules.go). -/
def parseStageName (args : Str) : Str := parseStageNameAux (fieldsOf args)

/-- The `for strings.HasSuffix(trimmed, "\\") && i+1 < len(lines)` loop of
`parseDockerfile`: join the following (trimmed) lines while the text ends in
a backslash, returning the joined text and the number of lines consumed. The
Go loop advances an index `i` into `lines`; here the caller passes the lines
after `i` and adds the consumed count back onto `i` (the `i+1 < len(lines)`
bound is exactly the consumed-from list being nonempty). -/
def joinCont (t : Str) : List Str → Str × Nat
  | [] => (t, 0)
  | l :: ls =>
    if ("\\".toList).isSuffixOf t then
      let r := joinCont (trimOneSuffix t "\\".toList ++ ' ' :: trimSpace l) ls
      (r.1, r.2 + 1)
    else (t, 0)

/-- The accumulator of `parseDockerfile`'s loop: the slices built so far plus
the open stage. -/
structure ParseState where
  instructions : List Instruction
  stages : List Stage
  baseImages : List Str
  stageCount : Nat
  currentStage : Option Stage
deriving Repr

/-- The state at the top of `parseDockerfile`. -/
def initParseState : ParseState := ⟨[], [], [], 0, none⟩

/-- A `*Stage` pointer as a zero-or-one-element list (for flushing
`currentStage` into `Stages`). -/
def optStageList : Option Stage → List Stage
  | some s => [s]
  | none => []

/-- The part of `parseDockerfile`'s loop body after a successful regex match:
append the instruction, open a new stage on `FROM` (flushing the previous
one), and append the instruction to the open stage if any. `inst.line` is the
Go `i + 1` with the continuation-advanced `i`, which is also the `StartLine`
of a stage opened here. -/
def parseInst (st : ParseState) (inst : Instruction) : ParseState :=
  let st1 : ParseState := { st with instructions := st.instructions ++ [inst] }
  let st2 : ParseState :=
    if inst.command = "FROM".toList then
      { st1 with
        stageCount := st1.stageCount + 1,
        stages := st1.stages ++ optStageList st1.currentStage,
        baseImages := st1.baseImages ++ [parseBaseImage inst.args],
        currentStage :=
          some ⟨parseStageName inst.args, parseBaseImage inst.args, [], inst.line⟩ }
    else st1
  match st2.currentStage with
  | some s =>
    { st2 with currentStage := some { s with instructions := s.instructions ++ [inst] } }
  | none => st2

/-- One iteration of `parseDockerfile`'s `for i, line := range lines` body,
at `entry = (i, line)`. -/
def parseStep (lines : List Str) (st : ParseState) (entry : Nat × Str) : ParseState :=
  let trimmed := trimSpace entry.2
  if trimmed.isEmpty || ("#".toList).isPrefixOf trimmed then st
  else
    let j := joinCont trimmed (lines.drop (entry.1 + 1))
    match instMatch j.1 with
    | none => st
    | some (cmd, args) => parseInst st ⟨toUpperStr cmd, args, entry.1 + j.2 + 1, j.1⟩

/-- `parseDockerfile` (rules.go). -/
def parseDockerfile (lines : List Str) : ParsedDockerfile :=
  let st := (lines.enum).foldl (parseStep lines) initParseState
  ⟨st.stages ++ optStageList st.currentStage, st.instructions, st.baseImages,
    decide (st.stageCount > 1)⟩

/-! ## The parse the specification describes

The specification's parser joins a line ending in a continuation marker with
the following line(s) *and consumes them*: a continuation line is not matched
again as an instruction of its own. `specJoinedCommands` is that reading,
written from the specification's words; it returns the uppercased commands of
the continuation-joined, non-blank, non-comment lines matching the
instruction shape, so its length is the instruction count the specification
predicts. -/

/-- Join a trimmed line with the following lines while it ends in `\`,
returning the joined line and the remaining (consumed-from) input. -/
def specJoin (t : Str) : List Str → Str × List Str
  | [] => (t, [])
  | l :: rest =>
    if ("\\".toList).isSuffixOf t then
      specJoin (trimOneSuffix t "\\".toList ++ ' ' :: trimSpace l) rest
    else (t, l :: rest)

/-- Worker for `specJoinedCommands`: `fuel` bounds the recursion depth; each
step consumes at least one line, so `fuel = length of the input` is always
enough. -/
def specJoinedCommandsAux : Nat → List Str → List Str
  | _, [] => []
  | 0, _ :: _ => []
  | fuel + 1, l :: rest =>
    let t := trimSpace l
    if t.isEmpty || ("#".toList).isPrefixOf t then specJoinedCommandsAux fuel rest
    else
      (match instMatch (specJoin t rest).1 with
       | some (cmd, _) => [toUpperStr cmd]
       | none => []) ++ specJoinedCommandsAux fuel (specJoin t rest).2

/-- The uppercased commands of the continuation-joined instruction lines, as
the specification describes the parse: its length is the instruction count
the specification predicts. -/
def specJoinedCommands (ls : List Str) : List Str := specJoinedCommandsAux ls.length ls

/-! ## Structural invariants of the parsed model -/

theorem headOpt_append_of_ne_nil {α : Type} (l1 l2 : List α) (h : l1 ≠ []) :
    (l1 ++ l2).head? = l1.head? := by
  cases l1 with
  | nil => exact absurd rfl h
  | cons a t => rfl

/-- A stage as `parseDockerfile` builds it: its instruction list starts with
the `FROM` instruction that opened it, whose argument string also supplies
the base image and whose line is the stage's start line. -/
def stageWellFormed (s : Stage) : Prop :=
  ∃ inst, s.instructions.head? = some inst ∧ inst.command = "FROM".toList
    ∧ s.baseImage = parseBaseImage inst.args ∧ s.startLine = inst.line

/-- The loop invariant of `parseDockerfile`: the flattened instruction list
is the pre-`FROM` instructions followed by the stages' lists (closed stages
then the open one); one base image per stage; every stage well formed; no
stage closed before the first `FROM`. -/
def ParseInv (st : ParseState) : Prop :=
  (st.currentStage = none → st.stages = [])
  ∧ (∃ pre, (∀ inst ∈ pre, inst.command ≠ "FROM".toList)
      ∧ st.instructions
          = pre ++ ((st.stages ++ optStageList st.currentStage).map Stage.instructions).join)
  ∧ st.baseImages.length = (st.stages ++ optStageList st.currentStage).length
  ∧ ∀ s ∈ st.stages ++ optStageList st.currentStage, stageWellFormed s

theorem initParseState_inv : ParseInv initParseState := by
  refine ⟨fun _ => rfl, ⟨[], ?_, ?_⟩, ?_, ?_⟩ <;> simp [initParseState, optStageList]

theorem parseInst_inv (st : ParseState) (inst : Instruction) (h : ParseInv st) :
    ParseInv (parseInst st inst) := by
  obtain ⟨hnone, ⟨pre, hpre, hinstr⟩, hlen, hwf⟩ := h
  by_cases hc : inst.command = "FROM".toList
  · cases hcur : st.currentStage with
    | none =>
      have hres : parseInst st inst =
          { st with
            instructions := st.instructions ++ [inst],
            stageCount := st.stageCount + 1,
            stages := st.stages ++ optStageList none,
            baseImages := st.baseImages ++ [parseBaseImage inst.args],
            currentStage :=
              some ⟨parseStageName inst.args, parseBaseImage inst.args,
                [] ++ [inst], inst.line⟩ } := by
        simp only [parseInst]
        rw [if_pos hc]
        dsimp only
        rw [hcur]
      have hstages : st.stages = [] := hnone hcur
      rw [hres]
      refine ⟨(fun hx => nomatch hx), ⟨pre, hpre, ?_⟩, ?_, ?_⟩
      · rw [hcur, hstages] at hinstr
        simp only [optStageList, List.append_nil, List.map_nil, List.join_nil,
          List.nil_append] at hinstr
        simp [hstages, optStageList, hinstr]
      · rw [hcur, hstages] at hlen
        simp only [optStageList, List.append_nil, List.length_nil] at hlen
        simp [hstages, optStageList, hlen]
      · intro s hs
        rw [hstages] at hs
        simp only [optStageList, List.append_nil, List.nil_append,
          List.mem_singleton] at hs
        subst hs
        exact ⟨inst, rfl, hc, rfl, rfl⟩
    | some cur =>
      have hres : parseInst st inst =
          { st with
            instructions := st.instructions ++ [inst],
            stageCount := st.stageCount + 1,
            stages := st.stages ++ optStageList (some cur),
            baseImages := st.baseImages ++ [parseBaseImage inst.args],
            currentStage :=
              some ⟨parseStageName inst.args, parseBaseImage inst.args,
                [] ++ [inst], inst.line⟩ } := by
        simp only [parseInst]
        rw [if_pos hc]
        dsimp only
        rw [hcur]
      rw [hres]
      refine ⟨(fun hx => nomatch hx), ⟨pre, hpre, ?_⟩, ?_, ?_⟩
      · rw [hcur] at hinstr
        simp only [optStageList] at hinstr ⊢
        rw [hinstr]
        simp
      · rw [hcur] at hlen
        simp only [optStageList] at hlen ⊢
        simp only [List.length_append, List.length_cons, List.length_nil] at hlen ⊢
        omega
      · intro s hs
        simp only [optStageList, List.append_assoc, List.mem_append,
          List.mem_singleton] at hs
        rcases hs with hs | hs | hs
        · exact hwf s (by simp [hcur, optStageList, hs])
        · subst hs
          exact hwf s (by simp [hcur, optStageList])
        · subst hs
          exact ⟨inst, rfl, hc, rfl, rfl⟩
  · cases hcur : st.currentStage with
    | none =>
      have hres : parseInst st inst =
          { st with instructions := st.instructions ++ [inst] } := by
        simp only [parseInst]
        rw [if_neg hc]
        dsimp only
        rw [hcur]
      have hstages : st.stages = [] := hnone hcur
      rw [hres]
      refine ⟨hnone, ⟨pre ++ [inst], ?_, ?_⟩, hlen, hwf⟩
      · intro i hi
        rcases List.mem_append.mp hi with h1 | h2
        · exact hpre i h1
        · rw [List.mem_singleton.mp h2]
          exact hc
      · rw [hcur, hstages] at hinstr ⊢
        simp only [optStageList, List.append_nil, List.map_nil, List.join_nil,
          List.append_nil] at hinstr ⊢
        rw [hinstr]
    | some cur =>
      have hres : parseInst st inst =
          { st with
            instructions := st.instructions ++ [inst],
            currentStage := some { cur with instructions := cur.instructions ++ [inst] } } := by
        simp only [parseInst]
        rw [if_neg hc]
        dsimp only
        rw [hcur]
      rw [hres]
      refine ⟨(fun hx => nomatch hx), ⟨pre, hpre, ?_⟩, ?_, ?_⟩
      · rw [hcur] at hinstr
        simp only [optStageList] at hinstr ⊢
        rw [hinstr]
        simp
      · rw [hcur] at hlen
        simp only [optStageList] at hlen ⊢
        simp only [List.length_append, List.length_cons, List.length_nil] at hlen ⊢
        omega
      · intro s hs
        simp only [optStageList, List.mem_append, List.mem_singleton] at hs
        rcases hs with hs | hs
        · exact hwf s (by simp [hcur, optStageList, hs])
        · subst hs
          obtain ⟨i0, hhead, hcmd, hbase, hline⟩ := hwf cur (by simp [hcur, optStageList])
          refine ⟨i0, ?_, hcmd, hbase, hline⟩
          have hne : cur.instructions ≠ [] := by
            intro hnil
            rw [hnil] at hhead
            cases hhead
          rw [headOpt_append_of_ne_nil cur.instructions [inst] hne]
          exact hhead

theorem parseStep_inv (lines : List Str) (st : ParseState) (entry : Nat × Str)
    (h : ParseInv st) : ParseInv (parseStep lines st entry) := by
  unfold parseStep
  cases hskip : (trimSpace entry.2).isEmpty || ("#".toList).isPrefixOf (trimSpace entry.2)
  · simp only [hskip, Bool.false_eq_true, if_false]
    cases hm : instMatch (joinCont (trimSpace entry.2) (lines.drop (entry.1 + 1))).1 with
    | none => exact h
    | some p => exact parseInst_inv st _ h
  · simp only [hskip, if_true]
    exact h

theorem foldl_parseStep_inv (lines : List Str) (entries : List (Nat × Str))
    (st : ParseState) (h : ParseInv st) :
    ParseInv (entries.foldl (parseStep lines) st) := by
  induction entries generalizing st with
  | nil => exact h
  | cons e rest ih => exact ih _ (parseStep_inv lines st e h)

theorem parseDockerfile_inv (lines : List Str) :
    (∃ pre, (∀ inst ∈ pre, inst.command ≠ "FROM".toList)
      ∧ (parseDockerfile lines).instructions
          = pre ++ ((parseDockerfile lines).stages.map Stage.instructions).join)
    ∧ (parseDockerfile lines).baseImages.length = (parseDockerfile lines).stages.length
    ∧ ∀ s ∈ (parseDockerfile lines).stages, stageWellFormed s := by
  have h := foldl_parseStep_inv lines lines.enum initParseState initParseState_inv
  obtain ⟨_, ⟨pre, hpre, hinstr⟩, hlen, hwf⟩ := h
  exact ⟨⟨pre, hpre, hinstr⟩, hlen, hwf⟩

/-! ## Claims about the parsed model -/

/-- C3 (amended): the flattened instruction list is the instructions
preceding the first `FROM` followed by the concatenation of the stages'
instruction lists in stage order, and there is one base-image reference per
stage. (The pre-`FROM` instructions belong to no stage but do appear in the
flattened list, so the flattened list is not in general the bare
concatenation of the stages.) -/
theorem parse_model_decomposition (lines : List Str) :
    ∃ pre, (∀ inst ∈ pre, inst.command ≠ "FROM".toList)
      ∧ (parseDockerfile lines).instructions
          = pre ++ ((parseDockerfile lines).stages.map Stage.instructions).join
      ∧ (parseDockerfile lines).baseImages.length = (parseDockerfile lines).stages.length := by
  have h := foldl_parseStep_inv lines lines.enum initParseState initParseState_inv
  obtain ⟨_, ⟨pre, hpre, hinstr⟩, hlen, _⟩ := h
  exact ⟨pre, hpre, hinstr, hlen⟩

/-- Input with one instruction before the first `FROM`. -/
def linesPreFromDemo : List Str := ["RUN echo hi".toList, "FROM ubuntu".toList]

/-- Counterexample to C3 as stated: on `RUN echo hi\nFROM ubuntu` the
flattened instruction list has two instructions (the pre-`FROM` `RUN` is in
the model), while the concatenation of the stages' instruction lists has only
one, so the two are not equal and the pre-`FROM` instruction is not absent
from the model. -/
theorem parse_model_decomposition_counterexample :
    (parseDockerfile linesPreFromDemo).instructions.length = 2
    ∧ ((parseDockerfile linesPreFromDemo).stages.map Stage.instructions).join.length = 1
    ∧ (parseDockerfile linesPreFromDemo).instructions.map Instruction.command
        = ["RUN".toList, "FROM".toList] := by decide

/-- Witness for C3 (amended) at the same concrete input. -/
theorem parse_model_decomposition_witness :
    ∃ pre, (∀ inst ∈ pre, inst.command ≠ "FROM".toList)
      ∧ (parseDockerfile linesPreFromDemo).instructions
          = pre ++ ((parseDockerfile linesPreFromDemo).stages.map Stage.instructions).join
      ∧ (parseDockerfile linesPreFromDemo).baseImages.length
          = (parseDockerfile linesPreFromDemo).stages.length :=
  parse_model_decomposition linesPreFromDemo

/-- C10: every stage of the parsed model opens with the `FROM` instruction
that created it: its instruction list is non-empty, its head is a `FROM`
instruction whose line is the stage's start line, and the stage's base-image
reference is the lower-cased first whitespace-delimited field of that
instruction's argument string (empty when there is no field). -/
theorem parse_stage_shape (lines : List Str) (s : Stage)
    (hs : s ∈ (parseDockerfile lines).stages) :
    s.instructions ≠ []
    ∧ ∃ inst, s.instructions.head? = some inst
        ∧ inst.command = "FROM".toList
        ∧ s.startLine = inst.line
        ∧ (fieldsOf inst.args = [] → s.baseImage = [])
        ∧ (∀ p ps, fieldsOf inst.args = p :: ps → s.baseImage = toLowerStr p) := by
  have h := (parseDockerfile_inv lines).2.2 s hs
  obtain ⟨inst, hhead, hcmd, hbase, hline⟩ := h
  refine ⟨?_, inst, hhead, hcmd, hline, ?_, ?_⟩
  · intro hnil
    rw [hnil] at hhead
    cases hhead
  · intro hfe
    rw [hbase]
    unfold parseBaseImage
    rw [hfe]
  · intro p ps hf
    rw [hbase]
    unfold parseBaseImage
    rw [hf]

/-- A two-line Dockerfile with a named stage, for the C10 witness. -/
def linesStageDemo : List Str :=
  ["FROM Ubuntu:22.04 AS base".toList, "RUN apt-get update".toList]

/-- The single stage `parseDockerfile` produces for `linesStageDemo`. -/
def stageDemo : Stage :=
  ⟨"base".toList, "ubuntu:22.04".toList,
    [⟨"FROM".toList, "Ubuntu:22.04 AS base".toList, 1, "FROM Ubuntu:22.04 AS base".toList⟩,
     ⟨"RUN".toList, "apt-get update".toList, 2, "RUN apt-get update".toList⟩], 1⟩

/-- Witness for C10 at a concrete input: the stage parsed from
`FROM Ubuntu:22.04 AS base\nRUN apt-get update` opens with its `FROM`
instruction and its base image is the lower-cased first field of its
argument. -/
theorem parse_stage_shape_witness :
    stageDemo ∈ (parseDockerfile linesStageDemo).stages
    ∧ (stageDemo.instructions ≠ []
      ∧ ∃ inst, stageDemo.instructions.head? = some inst
          ∧ inst.command = "FROM".toList
          ∧ stageDemo.startLine = inst.line
          ∧ (fieldsOf inst.args = [] → stageDemo.baseImage = [])
          ∧ (∀ p ps, fieldsOf inst.args = p :: ps → stageDemo.baseImage = toLowerStr p)) :=
  ⟨by decide, parse_stage_shape linesStageDemo stageDemo (by decide)⟩

/-- Input whose continuation line itself looks like an instruction. -/
def linesContDemo : List Str := ["RUN echo a \\".toList, "RUN echo b".toList]

/-- C2 (the code diverges): on `RUN echo a \\nRUN echo b` the parser
produces two instructions — the continuation-joined line and the consumed
continuation line parsed again — while the continuation-joined reading of
the specification yields exactly one instruction. The Go `for i, line :=
range lines` loop re-assigns `i` on every iteration, so the `i++` in the
continuation-joining body does not skip the joined lines. -/
theorem parse_count_vs_spec_joined :
    (parseDockerfile linesContDemo).instructions.length = 2
    ∧ specJoinedCommands linesContDemo = ["RUN".toList]
    ∧ (parseDockerfile linesContDemo).instructions.map Instruction.command
        = ["RUN".toList, "RUN".toList] := by decide

/-- Input where both `FROM` lines are consumed as continuations. -/
def linesMultiDemo : List Str :=
  ["RUN a \\".toList, "FROM x".toList, "RUN b \\".toList, "FROM y".toList]

/-- C9 (the code diverges): on `RUN a \\nFROM x\nRUN b \\nFROM y` every
`FROM` line is consumed by a continuation join, so after continuation-joining
the input has zero `FROM` instructions; the parser nevertheless re-parses the
consumed lines, counts two `FROM` instructions and reports a multi-stage
file. -/
theorem hasMultiStage_vs_spec_from_count :
    (parseDockerfile linesMultiDemo).hasMultiStage = true
    ∧ (specJoinedCommands linesMultiDemo).countP (fun c => c == "FROM".toList) = 0 := by decide

/-! ## The consecutive-RUN rule (rules.go, CombineRunRule.Check) -/

/-- The finding `CombineRunRule.Check` emits, anchored at `line`. -/
def combineRunIssue (line : Nat) : Issue :=
  ⟨"DIO010".toList, "medium".toList, "optimization".toList,
    "Consecutive RUN commands".toList,
    "Multiple consecutive RUN commands can be combined to reduce layers.".toList,
    line,
    "Combine RUN commands using && to reduce image layers.".toList, true⟩

/-- The loop state of `CombineRunRule.Check`. -/
structure CombineRunState where
  consecutiveRuns : Nat
  firstRunLine : Nat
  issues : List Issue

/-- One iteration of `CombineRunRule.Check`'s loop: count consecutive `RUN`
instructions, remember the first line of the current run, emit at three and
reset the counter; reset on any other instruction. -/
def combineRunStep (st : CombineRunState) (inst : Instruction) : CombineRunState :=
  if inst.command = "RUN".toList then
    let c := st.consecutiveRuns + 1
    let fl := if c = 1 then inst.line else st.firstRunLine
    if c ≥ 3 then ⟨0, fl, st.issues ++ [combineRunIssue fl]⟩
    else ⟨c, fl, st.issues⟩
  else ⟨0, st.firstRunLine, st.issues⟩

/-- `CombineRunRule.Check` (rules.go), as a function of the parsed
instruction list it iterates over. -/
def combineRunCheck (insts : List Instruction) : List Issue :=
  (insts.foldl combineRunStep ⟨0, 0, []⟩).issues

theorem combineRunStep_run_first (st : CombineRunState) (inst : Instruction)
    (h : inst.command = "RUN".toList) (h0 : st.consecutiveRuns = 0) :
    combineRunStep st inst = ⟨1, inst.line, st.issues⟩ := by
  simp [combineRunStep, h, h0]

theorem combineRunStep_run_second (st : CombineRunState) (inst : Instruction)
    (h : inst.command = "RUN".toList) (h1 : st.consecutiveRuns = 1) :
    combineRunStep st inst = ⟨2, st.firstRunLine, st.issues⟩ := by
  simp [combineRunStep, h, h1]

theorem combineRunStep_run_third (st : CombineRunState) (inst : Instruction)
    (h : inst.command = "RUN".toList) (h2 : st.consecutiveRuns = 2) :
    combineRunStep st inst
      = ⟨0, st.firstRunLine, st.issues ++ [combineRunIssue st.firstRunLine]⟩ := by
  simp [combineRunStep, h, h2]

theorem combineRunStep_nonrun (st : CombineRunState) (inst : Instruction)
    (h : ¬(inst.command = "RUN".toList)) :
    combineRunStep st inst = ⟨0, st.firstRunLine, st.issues⟩ := by
  simp only [combineRunStep]
  rw [if_neg h]

theorem combineRun_fold_acc (insts : List Instruction) :
    ∀ (c fl : Nat) (acc : List Issue),
      (insts.foldl combineRunStep ⟨c, fl, acc⟩).issues
        = acc ++ (insts.foldl combineRunStep ⟨c, fl, []⟩).issues := by
  induction insts with
  | nil => intro c fl acc; simp
  | cons x xs ih =>
    intro c fl acc
    simp only [List.foldl_cons]
    by_cases hx : x.command = "RUN".toList
    · by_cases h3 : c + 1 ≥ 3
      · have h1 : ¬(c + 1 = 1) := by omega
        have e1 : combineRunStep ⟨c, fl, acc⟩ x
            = ⟨0, fl, acc ++ [combineRunIssue fl]⟩ := by
          simp only [combineRunStep]
          rw [if_pos hx]
          rw [if_neg h1, if_pos h3]
        have e2 : combineRunStep ⟨c, fl, []⟩ x
            = ⟨0, fl, [] ++ [combineRunIssue fl]⟩ := by
          simp only [combineRunStep]
          rw [if_pos hx]
          rw [if_neg h1, if_pos h3]
        rw [e1, e2, ih 0 fl (acc ++ [combineRunIssue fl]), ih 0 fl ([] ++ [combineRunIssue fl])]
        simp
      · by_cases h1 : c + 1 = 1
        · have e1 : combineRunStep ⟨c, fl, acc⟩ x = ⟨c + 1, x.line, acc⟩ := by
            simp only [combineRunStep]
            rw [if_pos hx]
            rw [if_pos h1, if_neg h3]
          have e2 : combineRunStep ⟨c, fl, []⟩ x = ⟨c + 1, x.line, []⟩ := by
            simp only [combineRunStep]
            rw [if_pos hx]
            rw [if_pos h1, if_neg h3]
          rw [e1, e2, ih (c + 1) x.line acc]
        · have e1 : combineRunStep ⟨c, fl, acc⟩ x = ⟨c + 1, fl, acc⟩ := by
            simp only [combineRunStep]
            rw [if_pos hx]
            rw [if_neg h1, if_neg h3]
          have e2 : combineRunStep ⟨c, fl, []⟩ x = ⟨c + 1, fl, []⟩ := by
            simp only [combineRunStep]
            rw [if_pos hx]
            rw [if_neg h1, if_neg h3]
          rw [e1, e2, ih (c + 1) fl acc]
    · rw [combineRunStep_nonrun _ _ hx, combineRunStep_nonrun _ _ hx, ih 0 fl acc]

/-- The greedy reading of the rule: scan for three consecutive `RUN`
instructions; on finding them, emit one finding anchored at the first and
continue after the three; otherwise move on by one instruction. -/
def combineRunGreedy : List Instruction → List Issue
  | x :: y :: z :: rest =>
    if x.command = "RUN".toList ∧ y.command = "RUN".toList ∧ z.command = "RUN".toList then
      combineRunIssue x.line :: combineRunGreedy rest
    else
      combineRunGreedy (y :: z :: rest)
  | _ :: rest => combineRunGreedy rest
  | [] => []

theorem combineRun_fold0_eq_greedy :
    ∀ (n : Nat) (insts : List Instruction), insts.length ≤ n →
      ∀ fl, (insts.foldl combineRunStep ⟨0, fl, []⟩).issues = combineRunGreedy insts := by
  intro n
  induction n with
  | zero =>
    intro insts hle fl
    rw [List.eq_nil_of_length_eq_zero (Nat.le_zero.mp hle)]
    simp [combineRunGreedy]
  | succ n ih =>
    intro insts hle fl
    match insts with
    | [] => simp [combineRunGreedy]
    | [x] =>
      by_cases hx : x.command = "RUN".toList
      · rw [List.foldl_cons, combineRunStep_run_first _ _ hx rfl]
        simp [combineRunGreedy]
      · rw [List.foldl_cons, combineRunStep_nonrun _ _ hx]
        simp [combineRunGreedy]
    | [x, y] =>
      by_cases hx : x.command = "RUN".toList
      · rw [List.foldl_cons, combineRunStep_run_first _ _ hx rfl]
        by_cases hy : y.command = "RUN".toList
        · rw [List.foldl_cons, combineRunStep_run_second _ _ hy rfl]
          simp [combineRunGreedy]
        · rw [List.foldl_cons, combineRunStep_nonrun _ _ hy]
          simp [combineRunGreedy]
      · rw [List.foldl_cons, combineRunStep_nonrun _ _ hx]
        by_cases hy : y.command = "RUN".toList
        · rw [List.foldl_cons, combineRunStep_run_first _ _ hy rfl]
          simp [combineRunGreedy]
        · rw [List.foldl_cons, combineRunStep_nonrun _ _ hy]
          simp [combineRunGreedy]
    | x :: y :: z :: rest =>
      have hlen : rest.length + 3 ≤ n + 1 := by
        simpa [List.length_cons] using hle
      have hr : rest.length ≤ n := by omega
      have hyz : (y :: z :: rest).length ≤ n := by
        simp only [List.length_cons]; omega
      have hz2 : (z :: rest).length ≤ n := by
        simp only [List.length_cons]; omega
      by_cases hx : x.command = "RUN".toList
      · by_cases hy : y.command = "RUN".toList
        · by_cases hz : z.command = "RUN".toList
          · rw [List.foldl_cons, combineRunStep_run_first _ _ hx rfl,
              List.foldl_cons, combineRunStep_run_second _ _ hy rfl,
              List.foldl_cons, combineRunStep_run_third _ _ hz rfl]
            rw [combineRun_fold_acc, ih rest hr x.line]
            have hg : combineRunGreedy (x :: y :: z :: rest)
                = combineRunIssue x.line :: combineRunGreedy rest := by
              simp only [combineRunGreedy]
              rw [if_pos ⟨hx, hy, hz⟩]
            rw [hg]
            simp
          · rw [List.foldl_cons, combineRunStep_run_first _ _ hx rfl,
              List.foldl_cons, combineRunStep_run_second _ _ hy rfl,
              List.foldl_cons, combineRunStep_nonrun _ _ hz]
            have hlhs : (rest.foldl combineRunStep ⟨0, x.line, []⟩).issues
                = combineRunGreedy rest := ih rest hr x.line
            have hg : combineRunGreedy (x :: y :: z :: rest)
                = combineRunGreedy (y :: z :: rest) := by
              simp only [combineRunGreedy]
              rw [if_neg (by tauto)]
            have h2 : combineRunGreedy (y :: z :: rest) = combineRunGreedy rest := by
              rw [← ih (y :: z :: rest) hyz 0]
              rw [List.foldl_cons, combineRunStep_run_first _ _ hy rfl,
                List.foldl_cons, combineRunStep_nonrun _ _ hz]
              exact ih rest hr y.line
            rw [hg, h2]
            exact hlhs
        · rw [List.foldl_cons, combineRunStep_run_first _ _ hx rfl,
            List.foldl_cons, combineRunStep_nonrun _ _ hy]
          have hlhs : ((z :: rest).foldl combineRunStep ⟨0, x.line, []⟩).issues
              = combineRunGreedy (z :: rest) := ih (z :: rest) hz2 x.line
          have hg : combineRunGreedy (x :: y :: z :: rest)
              = combineRunGreedy (y :: z :: rest) := by
            simp only [combineRunGreedy]
            rw [if_neg (by tauto)]
          have h2 : combineRunGreedy (y :: z :: rest) = combineRunGreedy (z :: rest) := by
            rw [← ih (y :: z :: rest) hyz 0]
            rw [List.foldl_cons, combineRunStep_nonrun _ _ hy]
            exact ih (z :: rest) hz2 0
          rw [hg, h2]
          exact hlhs
      · rw [List.foldl_cons, combineRunStep_nonrun _ _ hx]
        have hg : combineRunGreedy (x :: y :: z :: rest)
            = combineRunGreedy (y :: z :: rest) := by
          simp only [combineRunGreedy]
          rw [if_neg (by tauto)]
        rw [hg]
        exact ih (y :: z :: rest) hyz fl

/-- A `RUN` instruction at a given source line (for stating the
run-of-`n` count). -/
def mkRunInst (line : Nat) : Instruction := ⟨"RUN".toList, [], line, []⟩

theorem combineRunGreedy_runs_length :
    ∀ (n : Nat) (ls : List Nat), ls.length ≤ n →
      (combineRunGreedy (ls.map mkRunInst)).length = ls.length / 3 := by
  intro n
  induction n with
  | zero =>
    intro ls hle
    rw [List.eq_nil_of_length_eq_zero (Nat.le_zero.mp hle)]
    simp [combineRunGreedy]
  | succ n ih =>
    intro ls hle
    match ls with
    | [] => simp [combineRunGreedy]
    | [a] => simp [combineRunGreedy]
    | [a, b] => simp [combineRunGreedy]
    | a :: b :: c :: rest =>
      have hr : rest.length ≤ n := by
        simp only [List.length_cons] at hle; omega
      simp only [List.map_cons, combineRunGreedy]
      rw [if_pos ⟨rfl, rfl, rfl⟩]
      simp only [List.length_cons, ih rest hr]
      omega

/-- C6 (amended): `CombineRunRule.Check` emits one finding per greedy group
of three consecutive `RUN` instructions (the counter resets both on any
non-`RUN` instruction and after each emitted finding), each anchored at the
source line of the first `RUN` of its group; so a maximal run of `n`
consecutive `RUN` instructions yields `n / 3` findings, not one. -/
theorem combineRunCheck_greedy (insts : List Instruction) :
    combineRunCheck insts = combineRunGreedy insts
    ∧ ∀ ls : List Nat,
        (combineRunCheck (ls.map mkRunInst)).length = ls.length / 3 := by
  constructor
  · exact combineRun_fold0_eq_greedy insts.length insts (le_refl _) 0
  · intro ls
    rw [combineRunCheck,
      combineRun_fold0_eq_greedy (ls.map mkRunInst).length (ls.map mkRunInst) (le_refl _) 0]
    exact combineRunGreedy_runs_length ls.length ls (le_refl _)

/-- Six consecutive `RUN` lines. -/
def linesSixRuns : List Str :=
  ["RUN a".toList, "RUN b".toList, "RUN c".toList,
   "RUN d".toList, "RUN e".toList, "RUN f".toList]

/-- Counterexample to C6 as stated: a single maximal run of six consecutive
`RUN` instructions yields two findings (anchored at lines 1 and 4), not one
finding anchored at the first `RUN` of the maximal run. -/
theorem combineRunCheck_counterexample :
    (combineRunCheck (parseDockerfile linesSixRuns).instructions).length = 2
    ∧ (combineRunCheck (parseDockerfile linesSixRuns).instructions).map Issue.line
        = [1, 4] := by decide

/-! ## The Cleanup strategy (optimizer, part_002, CleanupStrategy.Apply) -/

/-- The literal the cleanup regex `(apt-get install[^\n]+)` starts with. -/
def aptGetLit : Str := "apt-get install".toList

/-- The replacement closure of `CleanupStrategy.Apply`: keep a match that
already mentions the purge, else append the purge continuation. -/
def cleanupMatchRepl (m : Str) : Str :=
  if containsStr m ("rm -rf /var/lib/apt/lists".toList) then m
  else m ++ " && \\\n    rm -rf /var/lib/apt/lists/*".toList

/-- `aptGetPattern.ReplaceAllStringFunc` for `(apt-get install[^\n]+)`: scan
left to right; at each position where the literal is followed by at least one
non-newline character, the (greedy, leftmost) match runs to the end of the
line; replace it by `cleanupMatchRepl` and continue after it. `fuel` bounds
the recursion depth; each step consumes at least one character. -/
def aptGetReplaceAux : Nat → Str → Str
  | _, [] => []
  | 0, s => s
  | fuel + 1, c :: rest =>
    if aptGetLit.isPrefixOf (c :: rest) then
      let after := (c :: rest).drop aptGetLit.length
      let body := after.takeWhile (fun ch => ch != '\n')
      if body.isEmpty then c :: aptGetReplaceAux fuel rest
      else cleanupMatchRepl (aptGetLit ++ body) ++ aptGetReplaceAux fuel (after.drop body.length)
    else c :: aptGetReplaceAux fuel rest

/-- The regex pass of `CleanupStrategy.Apply`. -/
def aptGetReplace (s : Str) : Str := aptGetReplaceAux s.length s

/-- `CleanupStrategy.Apply` (part_002), as a function of the working text:
append the cache purge to `apt-get install` lines that lack it, insert
`--no-install-recommends`, and collapse a doubled flag. The Go method never
returns an error. -/
def cleanupApply (content : Str) : Str :=
  let content1 := aptGetReplace content
  let content2 := replaceAll content1 "apt-get install ".toList
    "apt-get install --no-install-recommends ".toList
  replaceAll content2 "--no-install-recommends --no-install-recommends".toList
    "--no-install-recommends".toList

/-- The failing input for cleanup idempotence. -/
def cleanupDemo : Str := "RUN apt-get install curl".toList

set_option maxRecDepth 8000 in
/-- C5 (the code diverges): `CleanupStrategy.Apply` is not idempotent. On
`RUN apt-get install curl` the first application appends the purge as a new
continuation line, so on the second application the single-line regex match
no longer contains the purge and a second purge line (and a dangling
`&& \`) is appended. -/
theorem cleanupApply_not_idempotent :
    cleanupApply (cleanupApply cleanupDemo) ≠ cleanupApply cleanupDemo
    ∧ cleanupApply cleanupDemo
        = ("RUN apt-get install --no-install-recommends curl && \\\n"
            ++ "    rm -rf /var/lib/apt/lists/*").toList
    ∧ cleanupApply (cleanupApply cleanupDemo)
        = ("RUN apt-get install --no-install-recommends curl && \\ && \\\n"
            ++ "    rm -rf /var/lib/apt/lists/*\n"
            ++ "    rm -rf /var/lib/apt/lists/*").toList := by decide

/-! ## The base-image strategy (optimizer, part_002, BaseImageStrategy.Apply) -/

/-- The `slimAlternatives` map (part_002): heavy image name to smaller
alternative. -/
def slimAlternatives (name : Str) : Option Str :=
  if name = "ubuntu".toList then some "ubuntu:22.04".toList
  else if name = "debian".toList then some "debian:bookworm-slim".toList
  else if name = "node".toList then some "node:lts-alpine".toList
  else if name = "python".toList then some "python:3.12-slim".toList
  else if name = "golang".toList then some "golang:1.22-alpine".toList
  else if name = "ruby".toList then some "ruby:3.3-alpine".toList
  else if name = "php".toList then some "php:8.3-alpine".toList
  else if name = "java".toList then some "eclipse-temurin:21-jre-alpine".toList
  else if name = "openjdk".toList then some "eclipse-temurin:21-jre-alpine".toList
  else if name = "nginx".toList then some "nginx:alpine".toList
  else if name = "httpd".toList then some "httpd:alpine".toList
  else if name = "postgres".toList then some "postgres:16-alpine".toList
  else if name = "mysql".toList then some "mysql:8.0".toList
  else if name = "redis".toList then some "redis:alpine".toList
  else if name = "mongo".toList then some "mongo:7.0".toList
  else if name = "centos".toList then some "debian:bookworm-slim".toList
  else if name = "fedora".toList then some "debian:bookworm-slim".toList
  else if name = "amazoncorretto".toList then some "amazoncorretto:21-alpine".toList
  else none

/-- Whether `BaseImageStrategy.Apply`'s loop rewrites a line: upper-cased
trimmed line starts with `FROM`, it has a second field, the lower-cased
reference contains none of `slim`/`alpine`/`distroless` and is not
`scratch`, and the name before any `:` tag is in `slimAlternatives`. -/
def baseImageLineMatch (line : Str) : Bool :=
  let trimmed := trimSpace line
  if ("FROM".toList).isPrefixOf (toUpperStr trimmed) then
    match fieldsOf trimmed with
    | _ :: p1 :: _ =>
      let baseImage := toLowerStr p1
      let imageName := baseImage.takeWhile (fun c => c != ':')
      if containsStr baseImage "slim".toList || containsStr baseImage "alpine".toList
          || containsStr baseImage "distroless".toList || baseImage = "scratch".toList then
        false
      else (slimAlternatives imageName).isSome
    | _ => false
  else false

/-- The rewritten line: `strings.Join(parts, " ")` of the trimmed line's
fields with the second replaced by the mapped alternative. -/
def baseImageRewriteLine (line : Str) : Str :=
  match fieldsOf (trimSpace line) with
  | p0 :: p1 :: rest =>
    match slimAlternatives ((toLowerStr p1).takeWhile (fun c => c != ':')) with
    | some alt => List.intercalate [' '] (p0 :: alt :: rest)
    | none => line
  | _ => line

/-- The loop of `BaseImageStrategy.Apply`: rewrite the first matching line
(`break` afterwards), leave every other line untouched; `none` when no line
matches (`modified` stays false). -/
def baseImageScan : List Str → Option (List Str)
  | [] => none
  | l :: rest =>
    if baseImageLineMatch l then some (baseImageRewriteLine l :: rest)
    else
      match baseImageScan rest with
      | some rest2 => some (l :: rest2)
      | none => none

/-- `BaseImageStrategy.Apply` (part_002), as a function of the working text:
Go's `(string, error)` is a text together with an optional error message. -/
def baseImageApply (content : Str) : Str × Option Str :=
  match baseImageScan (splitNl content) with
  | some ls => (joinNl ls, none)
  | none => (content, some "no applicable base image change".toList)

theorem baseImageScan_none (ls : List Str)
    (h : ∀ l ∈ ls, baseImageLineMatch l = false) : baseImageScan ls = none := by
  induction ls with
  | nil => rfl
  | cons l rest ih =>
    have hl : baseImageLineMatch l = false := h l (by simp)
    have hrest : baseImageScan rest = none := ih (fun l2 hl2 => h l2 (by simp [hl2]))
    simp only [baseImageScan]
    rw [if_neg (by simp [hl]), hrest]

theorem baseImageScan_found (pre : List Str) (l : Str) (post : List Str)
    (hpre : ∀ l2 ∈ pre, baseImageLineMatch l2 = false)
    (hl : baseImageLineMatch l = true) :
    baseImageScan (pre ++ l :: post) = some (pre ++ baseImageRewriteLine l :: post) := by
  induction pre with
  | nil =>
    simp only [List.nil_append, baseImageScan]
    rw [if_pos hl]
  | cons p pre ih =>
    have hp : baseImageLineMatch p = false := hpre p (by simp)
    have hrest := ih (fun l2 hl2 => hpre l2 (by simp [hl2]))
    simp only [List.cons_append, baseImageScan, List.append_eq]
    rw [if_neg (by simp [hp]), hrest]

/-- C7 (amended): `BaseImageStrategy.Apply` rewrites only the first line
whose trimmed form starts with `FROM` (case-insensitively), whose reference
contains none of `slim`/`alpine`/`distroless` and is not `scratch`, and
whose image name before any `:` tag — the whole remainder of the reference,
slashes included, not just its first path segment — is a key of the mapping
table; every other line is left unchanged; when no line matches it returns
the input text unchanged together with an error. -/
theorem baseImageApply_frame (content : Str) :
    ((∀ l ∈ splitNl content, baseImageLineMatch l = false) →
      baseImageApply content = (content, some "no applicable base image change".toList))
    ∧ (∀ pre l post, splitNl content = pre ++ l :: post →
        (∀ l2 ∈ pre, baseImageLineMatch l2 = false) →
        baseImageLineMatch l = true →
        baseImageApply content = (joinNl (pre ++ baseImageRewriteLine l :: post), none)) := by
  constructor
  · intro h
    unfold baseImageApply
    rw [baseImageScan_none (splitNl content) h]
  · intro pre l post hsplit hpre hl
    unfold baseImageApply
    rw [hsplit, baseImageScan_found pre l post hpre hl]

/-- The claim's reading of "image name": the first path segment of the
reference before any tag. -/
def specFirstPathSegment (ref : Str) : Str :=
  (ref.takeWhile (fun c => c != ':')).takeWhile (fun c => c != '/')

/-- Input whose `FROM` reference has a slash before the tag. -/
def baseImageSlashDemo : Str := "FROM ubuntu/foo:1.0\nRUN echo hi".toList

/-- Counterexample to C7 as stated: for `FROM ubuntu/foo:1.0` the first path
segment of the reference before the tag is `ubuntu`, which is in the mapping
table, and the reference contains no `slim`/`alpine`/`distroless` and is not
`scratch` — so the claim says the line is rewritten — yet `Apply` returns
the input unchanged with an error, because the code looks up the whole
pre-tag name `ubuntu/foo`. -/
theorem baseImageApply_counterexample :
    specFirstPathSegment "ubuntu/foo:1.0".toList = "ubuntu".toList
    ∧ (slimAlternatives (specFirstPathSegment "ubuntu/foo:1.0".toList)).isSome = true
    ∧ containsStr (toLowerStr "ubuntu/foo:1.0".toList) "slim".toList = false
    ∧ containsStr (toLowerStr "ubuntu/foo:1.0".toList) "alpine".toList = false
    ∧ containsStr (toLowerStr "ubuntu/foo:1.0".toList) "distroless".toList = false
    ∧ (toLowerStr "ubuntu/foo:1.0".toList ≠ "scratch".toList)
    ∧ baseImageApply baseImageSlashDemo
        = (baseImageSlashDemo, some "no applicable base image change".toList) := by decide

/-- A plain heavy base image for the C7 witness. -/
def baseImageGoodDemo : Str := "FROM ubuntu\nRUN apt-get update".toList

/-- Witness for C7 (amended) at `FROM ubuntu\nRUN apt-get update`: the first
`FROM` line is rewritten to the mapped alternative and the other line is
untouched. -/
theorem baseImageApply_frame_witness :
    baseImageApply baseImageGoodDemo
      = ("FROM ubuntu:22.04\nRUN apt-get update".toList, none) := by
  have h := (baseImageApply_frame baseImageGoodDemo).2
    [] ("FROM ubuntu".toList) ["RUN apt-get update".toList]
    (by decide) (by intro l2 hl2; cases hl2) (by decide)
  rw [h]
  decide

/-! ## The strategy pipeline (optimizer, part_001, Optimizer.OptimizeContent)

The loop of `OptimizeContent` is embedded over an abstract strategy list (the
`Strategy` interface: `Analyze` and `Apply`, the latter returning Go's
`(string, error)` as a text with an optional error message). The
`AnalysisResult` seeded into the context by `a.AnalyzeContent(content)` is a
parameter: the loop reads it only through the strategies, which are
universally quantified here. -/

/-- `models.AnalysisResult`. -/
structure AnalysisResult where
  dockerfile : Str
  issues : List Issue
  score : Int

/-- `OptimizationContext` (part_001). -/
structure OptimizationContext where
  originalContent : Str
  lines : List Str
  analysis : AnalysisResult
  currentContent : Str

/-- The pipeline `Mode`. -/
inductive Mode
  | suggest
  | autofix
deriving DecidableEq

/-- The `Strategy` interface (part_002). -/
structure OptStrategy where
  name : Str
  analyze : OptimizationContext → Option Optimization
  apply : OptimizationContext → Str × Option Str

/-- `models.OptimizationResult`. -/
structure OptimizationResult where
  originalDockerfile : Str
  optimizedDockerfile : Str
  optimizations : List Optimization
  estimatedReduction : Str

/-- One iteration of `OptimizeContent`'s strategy loop: skip when `Analyze`
returns nil; in autofix mode with an auto-fixable candidate call `Apply`, and
only on a nil error swap in the new text (re-splitting the lines) and mark
the candidate applied; always append the candidate. -/
def optimizeStep (mode : Mode) (acc : OptimizationContext × List Optimization)
    (strat : OptStrategy) : OptimizationContext × List Optimization :=
  match strat.analyze acc.1 with
  | none => acc
  | some opt =>
    if mode = Mode.autofix ∧ opt.autoFixable = true then
      match strat.apply acc.1 with
      | (newContent, none) =>
        ({ acc.1 with currentContent := newContent, lines := splitNl newContent },
          acc.2 ++ [{ opt with applied := true }])
      | (_, some _) => (acc.1, acc.2 ++ [opt])
    else (acc.1, acc.2 ++ [opt])

/-- The context `OptimizeContent` builds before the loop. -/
def initOptContext (analysis : AnalysisResult) (content : Str) : OptimizationContext :=
  ⟨content, splitNl content, analysis, content⟩

/-- `Optimizer.OptimizeContent` (part_001): run the strategies in order over
the working text and assemble the `OptimizationResult`. -/
def optimizeContent (strategies : List OptStrategy) (analysis : AnalysisResult)
    (mode : Mode) (content : Str) : OptimizationResult :=
  let r := strategies.foldl (optimizeStep mode) (initOptContext analysis content, [])
  ⟨content, r.1.currentContent, r.2, estimateReduction r.2⟩

theorem optimizeStep_none (mode : Mode) (acc : OptimizationContext × List Optimization)
    (strat : OptStrategy) (h : strat.analyze acc.1 = none) :
    optimizeStep mode acc strat = acc := by
  unfold optimizeStep
  rw [h]

theorem optimizeStep_skip (mode : Mode) (acc : OptimizationContext × List Optimization)
    (strat : OptStrategy) (opt : Optimization) (h : strat.analyze acc.1 = some opt)
    (hcond : ¬(mode = Mode.autofix ∧ opt.autoFixable = true)) :
    optimizeStep mode acc strat = (acc.1, acc.2 ++ [opt]) := by
  unfold optimizeStep
  rw [h]
  dsimp only
  rw [if_neg hcond]

theorem optimizeStep_error (mode : Mode) (acc : OptimizationContext × List Optimization)
    (strat : OptStrategy) (opt : Optimization) (t e : Str)
    (h : strat.analyze acc.1 = some opt) (happ : strat.apply acc.1 = (t, some e)) :
    optimizeStep mode acc strat = (acc.1, acc.2 ++ [opt]) := by
  unfold optimizeStep
  rw [h]
  dsimp only
  by_cases hcond : mode = Mode.autofix ∧ opt.autoFixable = true
  · rw [if_pos hcond, happ]
  · rw [if_neg hcond]

theorem optimizeStep_success (mode : Mode) (acc : OptimizationContext × List Optimization)
    (strat : OptStrategy) (opt : Optimization) (nc : Str)
    (h : strat.analyze acc.1 = some opt)
    (hcond : mode = Mode.autofix ∧ opt.autoFixable = true)
    (happ : strat.apply acc.1 = (nc, none)) :
    optimizeStep mode acc strat
      = ({ acc.1 with currentContent := nc, lines := splitNl nc },
          acc.2 ++ [{ opt with applied := true }]) := by
  unfold optimizeStep
  rw [h]
  dsimp only
  rw [if_pos hcond, happ]

theorem optimizeStep_opts_mono (mode : Mode) (acc : OptimizationContext × List Optimization)
    (strat : OptStrategy) :
    ∃ suffix, (optimizeStep mode acc strat).2 = acc.2 ++ suffix := by
  cases han : strat.analyze acc.1 with
  | none => exact ⟨[], by rw [optimizeStep_none mode acc strat han]; simp⟩
  | some opt =>
    by_cases hcond : mode = Mode.autofix ∧ opt.autoFixable = true
    · rcases happ : strat.apply acc.1 with ⟨nc, err⟩
      cases err with
      | none =>
        exact ⟨[{ opt with applied := true }],
          by rw [optimizeStep_success mode acc strat opt nc han hcond happ]⟩
      | some e =>
        exact ⟨[opt], by rw [optimizeStep_error mode acc strat opt nc e han happ]⟩
    · exact ⟨[opt], by rw [optimizeStep_skip mode acc strat opt han hcond]⟩

theorem optimizeFold_opts_mono (mode : Mode) (S : List OptStrategy) :
    ∀ p : OptimizationContext × List Optimization,
      ∃ suffix, (S.foldl (optimizeStep mode) p).2 = p.2 ++ suffix := by
  induction S with
  | nil => intro p; exact ⟨[], by simp⟩
  | cons strat S ih =>
    intro p
    obtain ⟨s1, h1⟩ := optimizeStep_opts_mono mode p strat
    obtain ⟨s2, h2⟩ := ih (optimizeStep mode p strat)
    refine ⟨s1 ++ s2, ?_⟩
    rw [List.foldl_cons, h2, h1]
    simp

theorem optimizeFold_changed (mode : Mode) (S : List OptStrategy) :
    ∀ p : OptimizationContext × List Optimization,
      (S.foldl (optimizeStep mode) p).1.currentContent ≠ p.1.currentContent →
        mode = Mode.autofix
        ∧ ∃ o ∈ (S.foldl (optimizeStep mode) p).2, o.autoFixable = true ∧ o.applied = true := by
  induction S with
  | nil => intro p hne; exact absurd rfl hne
  | cons strat S ih =>
    intro p hne
    rw [List.foldl_cons] at hne ⊢
    cases han : strat.analyze p.1 with
    | none =>
      rw [optimizeStep_none mode p strat han] at hne ⊢
      exact ih p hne
    | some opt =>
      by_cases hcond : mode = Mode.autofix ∧ opt.autoFixable = true
      · rcases happ : strat.apply p.1 with ⟨nc, err⟩
        cases err with
        | none =>
          rw [optimizeStep_success mode p strat opt nc han hcond happ] at hne ⊢
          refine ⟨hcond.1, ?_⟩
          obtain ⟨suffix, hsuf⟩ := optimizeFold_opts_mono mode S
            ({ p.1 with currentContent := nc, lines := splitNl nc },
              p.2 ++ [{ opt with applied := true }])
          rw [hsuf]
          exact ⟨{ opt with applied := true }, by simp, hcond.2, rfl⟩
        | some e =>
          rw [optimizeStep_error mode p strat opt nc e han happ] at hne ⊢
          exact ih (p.1, p.2 ++ [opt]) hne
      · rw [optimizeStep_skip mode p strat opt han hcond] at hne ⊢
        exact ih (p.1, p.2 ++ [opt]) hne

/-- C4: in `OptimizeContent`'s loop, (1) a strategy whose `Apply` returns an
error leaves the working context exactly as it was before the call, is
recorded with `applied = false`, and the remaining strategies run from that
same state; (2) the final text differs from the input only if the mode was
autofix and some recorded optimization was auto-fixable and applied (its
`Apply` succeeded). The hypothesis states what holds of every strategy in
the source: `Analyze` never returns a candidate already marked applied. -/
theorem optimize_pipeline_props (strategies : List OptStrategy)
    (analysis : AnalysisResult) (mode : Mode) (content : Str)
    (hAnalyze : ∀ strat ∈ strategies, ∀ ctx opt,
      strat.analyze ctx = some opt → opt.applied = false) :
    (∀ S1 strat S2, strategies = S1 ++ strat :: S2 →
      ∀ opt t e,
        strat.analyze
          ((S1.foldl (optimizeStep mode) (initOptContext analysis content, [])).1)
          = some opt →
        strat.apply
          ((S1.foldl (optimizeStep mode) (initOptContext analysis content, [])).1)
          = (t, some e) →
        opt.applied = false
        ∧ strategies.foldl (optimizeStep mode) (initOptContext analysis content, [])
            = S2.foldl (optimizeStep mode)
                ((S1.foldl (optimizeStep mode) (initOptContext analysis content, [])).1,
                  (S1.foldl (optimizeStep mode) (initOptContext analysis content, [])).2
                    ++ [opt]))
    ∧ ((optimizeContent strategies analysis mode content).optimizedDockerfile ≠ content →
        mode = Mode.autofix
        ∧ ∃ o ∈ (optimizeContent strategies analysis mode content).optimizations,
            o.autoFixable = true ∧ o.applied = true) := by
  constructor
  · intro S1 strat S2 hsplit opt t e han happ
    have hmem : strat ∈ strategies := by
      rw [hsplit]
      simp
    refine ⟨hAnalyze strat hmem _ opt han, ?_⟩
    rw [hsplit, List.foldl_append, List.foldl_cons,
      optimizeStep_error mode _ strat opt t e han happ]
  · intro hne
    exact optimizeFold_changed mode strategies (initOptContext analysis content, []) hne

/-- A candidate as the source strategies produce them: `applied` unset. -/
def optDemo : Optimization :=
  ⟨"OPT-X".toList, "cleanup".toList, [], [], [], false, true, 1⟩

/-- A strategy whose `Apply` always fails. -/
def stratFailDemo : OptStrategy :=
  ⟨"fail".toList, fun _ => some optDemo, fun _ => ("JUNK".toList, some "boom".toList)⟩

/-- A trivial analysis result for seeding the demo pipeline. -/
def analysisDemo : AnalysisResult := ⟨[], [], 100⟩

/-- Witness for C4 at a concrete one-strategy pipeline in autofix mode whose
`Apply` fails: the recorded candidate is unapplied and the context is the
initial one. -/
theorem optimize_pipeline_props_witness :
    optDemo.applied = false
    ∧ List.foldl (optimizeStep Mode.autofix)
        (initOptContext analysisDemo "FROM x".toList, []) [stratFailDemo]
      = (initOptContext analysisDemo "FROM x".toList, [optDemo]) :=
  (optimize_pipeline_props [stratFailDemo] analysisDemo Mode.autofix "FROM x".toList
    (by
      intro strat hs ctx opt h
      rw [List.mem_singleton] at hs
      subst hs
      simp only [stratFailDemo] at h
      cases h
      rfl)).1
    [] stratFailDemo [] rfl optDemo "JUNK".toList "boom".toList rfl rfl

end DIO
